import Mathlib

/-!
Shallow embedding of `src/tools/extract_edisks/src/main.rs`, the EDisk
container extractor, together with proofs about its block-table
resolution, the three block decoders, the bit-stream reader and the
scan/output behaviour.

Modelling conventions:
* Byte buffers are `List Nat`; where u8 arithmetic matters the wrap is
  explicit (`% 256`), mirroring `overflowing_neg` and `as u8`.
* Rust panics (out-of-bounds indexing, failed `unwrap`, failed `assert`,
  unknown block mode) are modelled as `none`; `fs::write` never runs after
  a panic, so a `none` result means no output is produced.
* `usize` values are `Nat`; the one signed quantity (the block offset) is
  `Int`, matching the `isize` in the source.  `checked_add_signed` fails
  exactly when the sum would be negative (`usize` overflow at the top end
  is unreachable for real ROM sizes and is not modelled).
* The mode-1 `while` loop consumes at least one input byte per iteration
  and reads past the end of the buffer are a panic, so running it with
  `storage.length` as fuel is exact: if the fuel runs out the remaining
  storage is empty and the loop would have panicked anyway.
-/

namespace Edisks

/-- The 12-byte container signature checked at window offset 132. -/
def EDISK_MAGIC : List Nat :=
  [0x45, 0x44, 0x69, 0x73, 0x6B, 0x20, 0x47, 0x61, 0x72, 0x79, 0x20, 0x44]

/-- Rust `read_long`: big-endian u32 read; panics (`none`) if any byte is out of bounds. -/
def read_long (mem : List Nat) (addr : Nat) : Option Nat := do
  let a ← mem[addr]?
  let b ← mem[addr + 1]?
  let c ← mem[addr + 2]?
  let d ← mem[addr + 3]?
  pure ((a <<< 24) ||| (b <<< 16) ||| (c <<< 8) ||| d)

/-- Rust `read_word`: big-endian u16 read; panics (`none`) if any byte is out of bounds. -/
def read_word (mem : List Nat) (addr : Nat) : Option Nat := do
  let a ← mem[addr]?
  let b ← mem[addr + 1]?
  pure ((a <<< 8) ||| b)

/-- u8 `overflowing_neg`: `(0 - x) mod 256`. -/
def neg8 (x : Nat) : Nat := (256 - x % 256) % 256

/-- The bit-stream reader: a byte buffer plus a bit cursor. -/
structure BitStream where
  bit_index : Nat
  data : List Nat

/-- Rust `BitStream::from`: cursor starts at bit 0. -/
def BitStream.fromBytes (data : List Nat) : BitStream :=
  { bit_index := 0, data := data }

/-- Rust `BitStream::bit`: next bit, MSB-first within each byte; advances the cursor.
Reading past the end of the buffer is a panic (`none`). -/
def BitStream.bit (s : BitStream) : Option (Nat × BitStream) :=
  let byte_index := s.bit_index / 8
  let bit_num := s.bit_index % 8
  match s.data[byte_index]? with
  | none => none
  | some byte =>
      some ((byte >>> (7 - bit_num)) &&& 1, { bit_index := s.bit_index + 1, data := s.data })

/-- The accumulator loop of `BitStream::bits`: `res = res << 1 | bit()`. -/
def BitStream.bitsAux (s : BitStream) (res : Nat) : Nat → Option (Nat × BitStream)
  | 0 => some (res, s)
  | n + 1 =>
    match s.bit with
    | none => none
    | some (b, s1) => s1.bitsAux (res <<< 1 ||| b) n

/-- Rust `BitStream::bits`: an `num_bits`-bit value assembled MSB-first. -/
def BitStream.bits (s : BitStream) (num_bits : Nat) : Option (Nat × BitStream) :=
  s.bitsAux 0 num_bits

/-- Rust `BitStream::byte_idx`: whole bytes touched so far. -/
def BitStream.byte_idx (s : BitStream) : Nat := (s.bit_index + 7) / 8

/-- The byte-by-byte literal copy loop of mode 1
(`for _ in 0..cmd+1 { v.push(storage[idx]); idx += 1 }`), consuming from the
front of the remaining stream; `none` models reading past the buffer. -/
def literalCopy : List Nat → Nat → List Nat → Option (List Nat × List Nat)
  | rest, 0, v => some (rest, v)
  | [], _ + 1, _ => none
  | b :: rest, k + 1, v => literalCopy rest k (v ++ [b])

/-- The mode-1 "Unpackbits" `while v.len() < 512` loop.  The stream cursor is
modelled by consuming the front of `storage`; `fuel` bounds the number of
iterations (each iteration consumes at least one stream byte, so
`storage.length` fuel is exact — see the header comment). -/
def unpackGo : Nat → List Nat → List Nat → Option (List Nat)
  | _, [], v => if 512 ≤ v.length then some v else none
  | 0, _ :: _, v => if 512 ≤ v.length then some v else none
  | fuel + 1, cmd :: rest, v =>
    if 512 ≤ v.length then some v
    else if cmd = 0x80 then unpackGo fuel rest v
    else if cmd < 0x80 then
      match literalCopy rest (cmd + 1) v with
      | none => none
      | some (rest2, v2) => unpackGo fuel rest2 v2
    else
      match rest with
      | [] => none
      | x :: rest2 => unpackGo fuel rest2 (v ++ List.replicate (neg8 cmd + 1) x)

/-- Mode-1 decode of the command stream `storage`. -/
def unpack (storage : List Nat) : Option (List Nat) :=
  unpackGo storage.length storage []

/-- Mode-0 decode: `storage[..512].iter().map(|x| x.overflowing_neg().0)`;
panics (`none`) if fewer than 512 bytes remain. -/
def decode_mode0 (storage : List Nat) : Option (List Nat) :=
  if storage.length < 512 then none
  else some ((storage.take 512).map neg8)

/-- The `for _ in 0..512` loop of mode 2: one flag bit per output byte, then
either a 4-bit table index or an 8-bit literal (`as u8` is the `% 256`). -/
def expandGo (lookup : List Nat) : Nat → BitStream → List Nat → Option (List Nat × BitStream)
  | 0, s, v => some (v, s)
  | count + 1, s, v =>
    match s.bit with
    | none => none
    | some (flag, s1) =>
      if flag ≠ 0 then
        match s1.bits 4 with
        | none => none
        | some (idx, s2) =>
          if h : idx < lookup.length then expandGo lookup count s2 (v ++ [lookup.get ⟨idx, h⟩])
          else none
      else
        match s1.bits 8 with
        | none => none
        | some (b, s2) => expandGo lookup count s2 (v ++ [b % 256])

/-- Mode-2 decode: first 16 bytes are the lookup table (`&storage[..16]`,
panicking if fewer remain), the rest feed the bit stream. -/
def decode_mode2 (storage : List Nat) : Option (List Nat) :=
  if storage.length < 16 then none
  else
    match expandGo (storage.take 16) 512 (BitStream.fromBytes (storage.drop 16)) [] with
    | none => none
    | some (v, _) => some v

/-- Rust `mode = block >> 24` from `extract_disk`. -/
def blockMode (block : Nat) : Nat := block >>> 24

/-- The signed-offset resolution from `extract_disk`:
`offset = (block & 0x00ffffff) as isize; if offset > 0x00800000 { offset -= 0x01000000 }`. -/
def resolveOffset (block : Nat) : Int :=
  let offset : Int := ((block &&& 0x00ffffff : Nat) : Int)
  if 0x00800000 < offset then offset - 0x01000000 else offset

/-- Rust `extract_block`: decode one 512-byte logical block.  The special case
returns zeroes without touching the buffer; otherwise
`storage = &mem[data_base.checked_add_signed(block_offset).unwrap()..]`
(`none` when the start is negative or past the end) and the mode dispatch
follows the source's `match`; an unknown mode is the `panic!` arm. -/
def extract_block (mem : List Nat) (data_base : Nat) (mode : Nat) (block_offset : Int) :
    Option (List Nat) :=
  if mode = 0 ∧ block_offset = 0 then some (List.replicate 512 0)
  else
    let start : Int := (data_base : Int) + block_offset
    if start < 0 ∨ (mem.length : Int) < start then none
    else
      let storage := mem.drop start.toNat
      if mode = 0 then decode_mode0 storage
      else if mode = 1 then unpack storage
      else if mode = 2 then decode_mode2 storage
      else none

/-- The block loop of `extract_disk`, accumulating the disk image;
any block failure (panic) aborts with `none` and nothing is written. -/
def extract_disk_go (mem : List Nat) (data_base : Nat) : List Nat → List Nat → Option (List Nat)
  | [], disk => some disk
  | block :: rest, disk =>
    match extract_block mem data_base (blockMode block) (resolveOffset block) with
    | none => none
    | some b => extract_disk_go mem data_base rest (disk ++ b)

/-- Rust `extract_disk`: decode every block, then (on success) the complete image
is handed to `fs::write`.  The returned list is exactly the bytes written. -/
def extract_disk (mem : List Nat) (location data_offset : Nat) (blocks : List Nat) :
    Option (List Nat) :=
  extract_disk_go mem (location + data_offset) blocks []

/-- Rust `try_extract`: validate the 512-byte window at `location` and, on a
signature match, parse the descriptor, read the block table and extract the
disk.  Result `some none` is the signature-mismatch `return Ok(())` (scan
continues, no output); `some (some disk)` is a successful extraction whose
bytes are written; `none` is any panic (window or read out of bounds, failed
`assert`, bad block mode, truncated storage). -/
def try_extract (mem : List Nat) (location : Nat) : Option (Option (List Nat)) :=
  if mem.length < location + 512 then none
  else
    let header := (mem.drop location).take 512
    if ((header.drop 132).take 12) ≠ EDISK_MAGIC then some none
    else
      match read_word header 128, read_word header 130 with
      | some block_size, some version =>
        if version ≠ 1 then none
        else if block_size ≠ 512 then none
        else
          match read_long header 156, read_long header 160, read_long header 144 with
          | some table_offset, some data_offset, some disk_len =>
            if disk_len % 512 ≠ 0 then none
            else
              let num_blocks := disk_len / 512
              let block_table := mem.drop (location + table_offset)
              match (List.range num_blocks).mapM (fun i => read_long block_table (i * 4)) with
              | none => none
              | some blocks =>
                match extract_disk mem location data_offset blocks with
                | none => none
                | some disk => some (some disk)
          | _, _, _ => none
      | _, _ => none

/-- The scan loop of `main`: probe every 64 KiB boundary while
`offset < data.len()`, collecting the `(location, image)` pairs that get
written; a panic (`none`) aborts the run.  `fuel` bounds the number of
probes; every iteration advances the offset by 65536, so `mem.length + 1`
probes always reach the end of the buffer and the fuel-exhausted arm
(`some []`) is never hit when starting from `scanFrom`. -/
def scanGo : Nat → List Nat → Nat → Option (List (Nat × List Nat))
  | 0, _, _ => some []
  | fuel + 1, mem, offset =>
    if offset < mem.length then
      match try_extract mem offset with
      | none => none
      | some none => scanGo fuel mem (offset + 0x10000)
      | some (some disk) =>
        match scanGo fuel mem (offset + 0x10000) with
        | none => none
        | some rest => some ((offset, disk) :: rest)
    else some []

/-- The whole scan of `main`, starting at offset 0 of the ROM (generalized
to any starting offset). -/
def scanFrom (mem : List Nat) (offset : Nat) : Option (List (Nat × List Nat)) :=
  scanGo (mem.length + 1) mem offset

/-- Mathematical description of MSB-first bit addressing: bit `i` of the
buffer is bit `7 - i % 8` of byte `i / 8`. -/
def msbBitAt (data : List Nat) (i : Nat) : Nat :=
  data.getD (i / 8) 0 / 2 ^ (7 - i % 8) % 2

/-- A concrete mode-1 command stream: a 1-byte literal followed by four
128-byte repeat runs, so the decoder holds 385 bytes when the last run
begins and 513 bytes when it ends. -/
def c2stream : List Nat := [0x00, 0xAA, 0x81, 0xBB, 0x81, 0xBB, 0x81, 0xBB, 0x81, 0xBB]

/-- A concrete mode-2 storage area: a 16-byte lookup table of `0xAA`
followed by 320 bytes of `0xFF`, i.e. 2560 one-bits — 512 dictionary
references to entry 15. -/
def c4mem : List Nat := List.replicate 16 0xAA ++ List.replicate 320 0xFF

/-- Spec-side description of the block loop: decode each table entry
independently, failing if any entry fails. -/
def decodeBlocks (mem : List Nat) (data_base : Nat) : List Nat → Option (List (List Nat))
  | [] => some []
  | block :: rest =>
    match extract_block mem data_base (blockMode block) (resolveOffset block) with
    | none => none
    | some b =>
      match decodeBlocks mem data_base rest with
      | none => none
      | some bs => some (b :: bs)

/-! ### Arithmetic bridges for the bit-level operations -/

theorem shiftRight_and_one (x k : Nat) : (x >>> k) &&& 1 = x / 2 ^ k % 2 := by
  rw [Nat.shiftRight_eq_div_pow, Nat.and_one_is_mod]

theorem shiftLeft_one_lor (r b : Nat) (h : b ≤ 1) : r <<< 1 ||| b = 2 * r + b := by
  have h2 : r <<< 1 = 2 * r := by rw [Nat.shiftLeft_eq]; ring
  rw [h2]
  interval_cases b
  · simp
  · have h3 : 2 * r ||| 1 = Nat.bit false r ||| Nat.bit true 0 := by
      simp [Nat.bit_val]
    rw [h3, Nat.lor_bit]
    simp [Nat.bit_val]


theorem msbBitAt_le_one (data : List Nat) (i : Nat) : msbBitAt data i ≤ 1 :=
  Nat.lt_succ_iff.mp (Nat.mod_lt _ (by norm_num))

/-! ### The bit-stream reader -/

theorem BitStream.bit_eq (data : List Nat) (i : Nat) (h : i < 8 * data.length) :
    BitStream.bit { bit_index := i, data := data } =
      some (msbBitAt data i, { bit_index := i + 1, data := data }) := by
  have hb : i / 8 < data.length := by
    apply Nat.div_lt_of_lt_mul
    omega
  unfold BitStream.bit
  simp only [List.getElem?_eq_getElem hb]
  rw [shiftRight_and_one]
  rw [msbBitAt, List.getD_eq_getElem data 0 hb]

theorem BitStream.bit_le_one (s s' : BitStream) (b : Nat) (h : s.bit = some (b, s')) :
    b ≤ 1 := by
  simp only [BitStream.bit] at h
  cases hg : s.data[s.bit_index / 8]? with
  | none => rw [hg] at h; simp at h
  | some byte =>
    rw [hg] at h
    simp only [Option.some.injEq, Prod.mk.injEq] at h
    rw [← h.1, shiftRight_and_one]
    have h2 : byte / 2 ^ (7 - s.bit_index % 8) % 2 < 2 :=
      Nat.mod_lt _ (by norm_num)
    omega

theorem BitStream.bitsAux_spec (data : List Nat) :
    ∀ (n c res : Nat), c + n ≤ 8 * data.length →
      BitStream.bitsAux { bit_index := c, data := data } res n =
        some (res * 2 ^ n + ∑ j ∈ Finset.range n, msbBitAt data (c + j) * 2 ^ (n - 1 - j),
          { bit_index := c + n, data := data }) := by
  intro n
  induction n with
  | zero => intro c res _; simp [BitStream.bitsAux]
  | succ n ih =>
    intro c res h
    rw [BitStream.bitsAux]
    rw [BitStream.bit_eq data c (by omega)]
    dsimp only
    rw [shiftLeft_one_lor res (msbBitAt data c) (msbBitAt_le_one data c)]
    rw [ih (c + 1) (2 * res + msbBitAt data c) (by omega)]
    have hsum : ∑ j ∈ Finset.range (n + 1), msbBitAt data (c + j) * 2 ^ (n + 1 - 1 - j)
        = msbBitAt data c * 2 ^ n
          + ∑ j ∈ Finset.range n, msbBitAt data (c + 1 + j) * 2 ^ (n - 1 - j) := by
      rw [Finset.sum_range_succ']
      have hterm : ∀ j ∈ Finset.range n,
          msbBitAt data (c + (j + 1)) * 2 ^ (n + 1 - 1 - (j + 1)) =
            msbBitAt data (c + 1 + j) * 2 ^ (n - 1 - j) := by
        intro j _
        have e1 : c + (j + 1) = c + 1 + j := by omega
        have e2 : n + 1 - 1 - (j + 1) = n - 1 - j := by omega
        rw [e1, e2]
      rw [Finset.sum_congr rfl hterm]
      have e3 : n + 1 - 1 - 0 = n := by omega
      have e4 : c + 0 = c := by omega
      rw [e3, e4]
      ring
    have hidx : c + 1 + n = c + (n + 1) := by omega
    rw [hsum, hidx]
    have hprod : (2 * res + msbBitAt data c) * 2 ^ n
        = res * 2 ^ (n + 1) + msbBitAt data c * 2 ^ n := by ring
    rw [hprod, Nat.add_assoc]

/-- Claim C7: for every byte buffer and cursor position, `bit()` returns the
bits of each byte most-significant-bit first and advances the cursor by 1,
and `bits(n)` is the n-bit value obtained from n successive `bit()` calls
with the first bit read in the highest-order position (here as the weighted
sum with weight `2 ^ (n - 1 - j)` for the j-th bit read). -/
theorem C7_bitstream_msb_first (data : List Nat) (c n : Nat) (h : c + n ≤ 8 * data.length) :
    (∀ i, i < 8 * data.length →
      BitStream.bit { bit_index := i, data := data } =
        some (msbBitAt data i, { bit_index := i + 1, data := data })) ∧
    BitStream.bits { bit_index := c, data := data } n =
      some (∑ j ∈ Finset.range n, msbBitAt data (c + j) * 2 ^ (n - 1 - j),
        { bit_index := c + n, data := data }) := by
  constructor
  · intro i hi
    exact BitStream.bit_eq data i hi
  · rw [BitStream.bits, BitStream.bitsAux_spec data n c 0 h]
    simp

theorem C7_witness :
    BitStream.bits { bit_index := 0, data := [0xA5] } 8 =
      some (∑ j ∈ Finset.range 8, msbBitAt [0xA5] (0 + j) * 2 ^ (8 - 1 - j),
        { bit_index := 0 + 8, data := [0xA5] }) :=
  (C7_bitstream_msb_first [0xA5] 0 8 (by decide)).2

/-! ### Mode 1: run-length decoding -/

theorem literalCopy_eq :
    ∀ (k : Nat) (rest v : List Nat),
      literalCopy rest k v =
        if k ≤ rest.length then some (rest.drop k, v ++ rest.take k) else none := by
  intro k
  induction k with
  | zero => intro rest v; simp [literalCopy]
  | succ k ih =>
    intro rest v
    cases rest with
    | nil => simp [literalCopy]
    | cons b rest =>
      rw [literalCopy, ih]
      by_cases hr : k ≤ rest.length
      · rw [if_pos hr, if_pos (by simpa using Nat.succ_le_succ hr)]
        simp
      · rw [if_neg hr, if_neg (by simp; omega)]

theorem unpackGo_full (fuel : Nat) (storage v : List Nat) (h : 512 ≤ v.length) :
    unpackGo fuel storage v = some v := by
  cases fuel with
  | zero => cases storage <;> rw [unpackGo] <;> rw [if_pos h]
  | succ f =>
    cases storage with
    | nil => rw [unpackGo, if_pos h]
    | cons cmd rest => cases rest <;> rw [unpackGo] <;> rw [if_pos h]

theorem unpackGo_succ (fuel cmd : Nat) (rest v : List Nat) (h : v.length < 512) :
    unpackGo (fuel + 1) (cmd :: rest) v =
      if cmd = 0x80 then unpackGo fuel rest v
      else if cmd < 0x80 then
        (if cmd + 1 ≤ rest.length then
          unpackGo fuel (rest.drop (cmd + 1)) (v ++ rest.take (cmd + 1))
        else none)
      else
        (match rest with
         | [] => none
         | x :: rest2 => unpackGo fuel rest2 (v ++ List.replicate (neg8 cmd + 1) x)) := by
  cases rest with
  | nil =>
    conv_lhs => rw [unpackGo]
    rw [if_neg (by omega), literalCopy_eq]
    by_cases h8 : cmd = 0x80
    · rw [if_pos h8, if_pos h8]
    · rw [if_neg h8, if_neg h8]
      by_cases hlt : cmd < 0x80
      · rw [if_pos hlt, if_pos hlt]
        have hr : ¬ (cmd + 1 ≤ ([] : List Nat).length) := by simp
        rw [if_neg hr, if_neg hr]
      · rw [if_neg hlt, if_neg hlt]
  | cons y rest2 =>
    conv_lhs => rw [unpackGo]
    rw [if_neg (by omega), literalCopy_eq]
    by_cases h8 : cmd = 0x80
    · rw [if_pos h8, if_pos h8]
    · rw [if_neg h8, if_neg h8]
      by_cases hlt : cmd < 0x80
      · rw [if_pos hlt, if_pos hlt]
        by_cases hr : cmd + 1 ≤ (y :: rest2).length
        · rw [if_pos hr, if_pos hr]
        · rw [if_neg hr, if_neg hr]
      · rw [if_neg hlt, if_neg hlt]

theorem unpackGo_some_ge :
    ∀ (fuel : Nat) (storage v out : List Nat),
      unpackGo fuel storage v = some out → 512 ≤ out.length := by
  intro fuel
  induction fuel with
  | zero =>
    intro storage v out h
    by_cases hv : 512 ≤ v.length
    · rw [unpackGo_full 0 storage v hv] at h
      injection h with h2
      exact h2 ▸ hv
    · cases storage <;> rw [unpackGo, if_neg hv] at h <;> simp at h
  | succ fuel ih =>
    intro storage v out h
    by_cases hv : 512 ≤ v.length
    · rw [unpackGo_full (fuel + 1) storage v hv] at h
      injection h with h2
      exact h2 ▸ hv
    · cases storage with
      | nil => rw [unpackGo, if_neg hv] at h; simp at h
      | cons cmd rest =>
        rw [unpackGo_succ fuel cmd rest v (by omega)] at h
        by_cases h8 : cmd = 0x80
        · rw [if_pos h8] at h
          exact ih rest v out h
        · rw [if_neg h8] at h
          by_cases hlt : cmd < 0x80
          · rw [if_pos hlt] at h
            by_cases hr : cmd + 1 ≤ rest.length
            · rw [if_pos hr] at h
              exact ih _ _ _ h
            · rw [if_neg hr] at h
              simp at h
          · rw [if_neg hlt] at h
            cases rest with
            | nil => simp at h
            | cons x rest2 => exact ih _ _ _ h

theorem neg8_eq_of_mid (cmd : Nat) (h1 : 0x80 < cmd) (h2 : cmd < 0x100) :
    neg8 cmd = 256 - cmd := by
  unfold neg8
  omega

theorem unpackGo_le :
    ∀ (fuel : Nat) (storage v out : List Nat), (∀ b ∈ storage, b < 256) →
      unpackGo fuel storage v = some out → v.length < 512 → out.length ≤ 639 := by
  intro fuel
  induction fuel with
  | zero =>
    intro storage v out hb h hv
    cases storage <;> rw [unpackGo, if_neg (by omega)] at h <;> simp at h
  | succ fuel ih =>
    intro storage v out hb h hv
    cases storage with
    | nil => rw [unpackGo, if_neg (by omega)] at h; simp at h
    | cons cmd rest =>
      have hrest : ∀ b ∈ rest, b < 256 := fun b hm => hb b (List.mem_cons_of_mem cmd hm)
      rw [unpackGo_succ fuel cmd rest v hv] at h
      by_cases h8 : cmd = 0x80
      · rw [if_pos h8] at h
        exact ih rest v out hrest h hv
      · rw [if_neg h8] at h
        by_cases hlt : cmd < 0x80
        · rw [if_pos hlt] at h
          by_cases hr : cmd + 1 ≤ rest.length
          · rw [if_pos hr] at h
            have hlen : (v ++ rest.take (cmd + 1)).length = v.length + (cmd + 1) := by
              simp [List.length_take]
              omega
            by_cases hv2 : (v ++ rest.take (cmd + 1)).length < 512
            · have hdb : ∀ b ∈ rest.drop (cmd + 1), b < 256 :=
                fun b hm => hrest b (List.drop_subset _ _ hm)
              exact le_trans (le_refl _) (ih _ _ _ hdb h hv2)
            · rw [unpackGo_full fuel _ _ (by omega)] at h
              injection h with h2
              rw [← h2, hlen]
              omega
          · rw [if_neg hr] at h
            simp at h
        · rw [if_neg hlt] at h
          cases rest with
          | nil => simp at h
          | cons x rest2 =>
            dsimp only at h
            have hcmd : cmd < 256 := hb cmd (List.mem_cons_self cmd _)
            have hn : neg8 cmd + 1 ≤ 128 := by
              rw [neg8_eq_of_mid cmd (by omega) hcmd]
              omega
            have hrest2 : ∀ b ∈ rest2, b < 256 :=
              fun b hm => hrest b (List.mem_cons_of_mem x hm)
            have hlen : (v ++ List.replicate (neg8 cmd + 1) x).length
                = v.length + (neg8 cmd + 1) := by simp
            by_cases hv2 : (v ++ List.replicate (neg8 cmd + 1) x).length < 512
            · exact ih _ _ _ hrest2 h hv2
            · rw [unpackGo_full fuel _ _ (by omega)] at h
              injection h with h2
              rw [← h2, hlen]
              omega


set_option maxRecDepth 40000 in
/-- Claim C2 (counterexample): mode-1 decoding does not always produce
exactly 512 output bytes — on `c2stream` it terminates with 513 bytes,
because the final repeat run is executed in full. -/
theorem C2_counterexample :
    unpack c2stream = some (0xAA :: List.replicate 512 0xBB) ∧
      (0xAA :: List.replicate 512 0xBB).length ≠ 512 := by
  constructor
  · decide
  · decide

/-- Claim C2 (amended): for every input command stream, mode-1 decoding
produces at least 512 output bytes when it terminates, and stops checking at
run boundaries: as soon as at least 512 output bytes exist no further
command is consumed (the accumulated output is returned unchanged).  A run
that begins before the 512th byte is executed in full, so the output may
exceed 512 bytes. -/
theorem C2_amended_rle_stops_at_boundary (storage : List Nat) :
    (∀ out, unpack storage = some out → 512 ≤ out.length) ∧
    (∀ fuel v, 512 ≤ v.length → unpackGo fuel storage v = some v) := by
  constructor
  · intro out h
    exact unpackGo_some_ge storage.length storage [] out h
  · intro fuel v hv
    exact unpackGo_full fuel storage v hv

set_option maxRecDepth 40000 in
theorem C2_witness : 512 ≤ (0xAA :: List.replicate 512 0xBB).length :=
  (C2_amended_rle_stops_at_boundary c2stream).1 (0xAA :: List.replicate 512 0xBB) (by decide)

/-- Claim C3: mode-1 command semantics — command byte `0x80` consumes the
byte and emits nothing; a command in `[0x00, 0x7F]` copies the next
`cmd + 1` stream bytes verbatim to the output; a command in `[0x81, 0xFF]`
reads one following byte and emits it `(256 - cmd) + 1` times. -/
theorem C3_rle_command_semantics (fuel cmd : Nat) (rest v : List Nat) (h : v.length < 512) :
    (cmd = 0x80 → unpackGo (fuel + 1) (cmd :: rest) v = unpackGo fuel rest v) ∧
    (cmd < 0x80 → cmd + 1 ≤ rest.length →
      unpackGo (fuel + 1) (cmd :: rest) v =
        unpackGo fuel (rest.drop (cmd + 1)) (v ++ rest.take (cmd + 1))) ∧
    (0x80 < cmd → cmd < 0x100 → ∀ x rest2, rest = x :: rest2 →
      unpackGo (fuel + 1) (cmd :: rest) v =
        unpackGo fuel rest2 (v ++ List.replicate ((256 - cmd) + 1) x)) := by
  refine ⟨?_, ?_, ?_⟩
  · intro h8
    rw [unpackGo_succ fuel cmd rest v h, if_pos h8]
  · intro hlt hr
    rw [unpackGo_succ fuel cmd rest v h, if_neg (by omega), if_pos hlt, if_pos hr]
  · intro hgt hub x rest2 hrest
    subst hrest
    rw [unpackGo_succ fuel cmd (x :: rest2) v h, if_neg (by omega), if_neg (by omega)]
    rw [neg8_eq_of_mid cmd hgt hub]

theorem C3_witness : unpackGo 1 [0x80] [] = unpackGo 0 [] [] :=
  (C3_rle_command_semantics 0 0x80 [] [] (by decide)).1 rfl

/-- Claim C10: whenever mode-1 decoding of a byte stream terminates
successfully, its output length is at least 512 and at most 639 bytes. -/
theorem C10_rle_output_bounds (storage out : List Nat) (hb : ∀ b ∈ storage, b < 256)
    (h : unpack storage = some out) : 512 ≤ out.length ∧ out.length ≤ 639 := by
  constructor
  · exact unpackGo_some_ge storage.length storage [] out h
  · exact unpackGo_le storage.length storage [] out hb h (by simp)

set_option maxRecDepth 40000 in
theorem C10_witness :
    512 ≤ (0xAA :: List.replicate 512 0xBB).length ∧
      (0xAA :: List.replicate 512 0xBB).length ≤ 639 :=
  C10_rle_output_bounds c2stream (0xAA :: List.replicate 512 0xBB) (by decide) (by decide)

/-! ### Mode 2: bit-packed dictionary decoding -/

theorem expandGo_some (lookup : List Nat) :
    ∀ (count : Nat) (s : BitStream) (v out : List Nat) (s' : BitStream),
      expandGo lookup count s v = some (out, s') →
      out.length = v.length + count ∧ ∀ b ∈ out, b ∈ v ∨ b ∈ lookup ∨ b < 256 := by
  intro count
  induction count with
  | zero =>
    intro s v out s' h
    rw [expandGo] at h
    injection h with h2
    injection h2 with h3 h4
    subst h3
    exact ⟨by simp, fun b hm => Or.inl hm⟩
  | succ count ih =>
    intro s v out s' h
    rw [expandGo] at h
    cases hbit : s.bit with
    | none => rw [hbit] at h; simp at h
    | some p =>
      obtain ⟨flag, s1⟩ := p
      rw [hbit] at h
      dsimp only at h
      by_cases hf : flag ≠ 0
      · rw [if_pos hf] at h
        cases hbits : s1.bits 4 with
        | none => rw [hbits] at h; simp at h
        | some q =>
          obtain ⟨idx, s2⟩ := q
          rw [hbits] at h
          dsimp only at h
          by_cases hidx : idx < lookup.length
          · rw [dif_pos hidx] at h
            obtain ⟨hlen, hmem⟩ := ih s2 (v ++ [lookup.get ⟨idx, hidx⟩]) out s' h
            constructor
            · rw [hlen]
              simp
              omega
            · intro b hm
              rcases hmem b hm with hv | hl | hb
              · rcases List.mem_append.mp hv with hv2 | hv2
                · exact Or.inl hv2
                · have : b = lookup.get ⟨idx, hidx⟩ := by simpa using hv2
                  exact Or.inr (Or.inl (this ▸ List.get_mem lookup idx hidx))
              · exact Or.inr (Or.inl hl)
              · exact Or.inr (Or.inr hb)
          · rw [dif_neg hidx] at h
            simp at h
      · rw [if_neg hf] at h
        cases hbits : s1.bits 8 with
        | none => rw [hbits] at h; simp at h
        | some q =>
          obtain ⟨b0, s2⟩ := q
          rw [hbits] at h
          dsimp only at h
          obtain ⟨hlen, hmem⟩ := ih s2 (v ++ [b0 % 256]) out s' h
          constructor
          · rw [hlen]
            simp
            omega
          · intro b hm
            rcases hmem b hm with hv | hl | hb
            · rcases List.mem_append.mp hv with hv2 | hv2
              · exact Or.inl hv2
              · have hb0 : b = b0 % 256 := by simpa using hv2
                exact Or.inr (Or.inr (by rw [hb0]; exact Nat.mod_lt _ (by norm_num)))
            · exact Or.inr (Or.inl hl)
            · exact Or.inr (Or.inr hb)

/-- Claim C4: mode-2 decoding treats the first 16 bytes at the storage start
as the lookup table and the rest as an MSB-first bit stream; it iterates
exactly 512 times, emitting per iteration either a lookup-table byte (flag
bit 1, 4-bit index) or an 8-bit literal (flag bit 0), so a successful decode
has exactly 512 output bytes, each one a table byte or an 8-bit value. -/
theorem C4_mode2_decode (mem : List Nat) (data_base : Nat) (off : Int) (out : List Nat)
    (h : extract_block mem data_base 2 off = some out) :
    out.length = 512 ∧
      ∀ b ∈ out, b ∈ (mem.drop ((data_base : Int) + off).toNat).take 16 ∨ b < 256 := by
  simp only [extract_block] at h
  rw [if_neg (by simp)] at h
  by_cases hb : ((data_base : Int) + off < 0 ∨ (mem.length : Int) < (data_base : Int) + off)
  · rw [if_pos hb] at h
    simp at h
  · rw [if_neg hb] at h
    rw [if_pos trivial] at h
    rw [decode_mode2] at h
    by_cases hlen : (mem.drop ((data_base : Int) + off).toNat).length < 16
    · rw [if_pos hlen] at h
      simp at h
    · rw [if_neg hlen] at h
      cases hexp : expandGo ((mem.drop ((data_base : Int) + off).toNat).take 16) 512
          (BitStream.fromBytes ((mem.drop ((data_base : Int) + off).toNat).drop 16)) [] with
      | none => rw [hexp] at h; simp at h
      | some p =>
        obtain ⟨v, sfin⟩ := p
        rw [hexp] at h
        dsimp only at h
        injection h with h2
        subst h2
        obtain ⟨hlen2, hmem⟩ := expandGo_some _ 512 _ [] v sfin hexp
        refine ⟨by simpa using hlen2, fun b hm => ?_⟩
        rcases hmem b hm with hv | hl | hsmall
        · simp at hv
        · exact Or.inl hl
        · exact Or.inr hsmall

set_option maxRecDepth 40000 in
theorem ff_msbBitAt (i : Nat) (hi : i < 2560) : msbBitAt (List.replicate 320 0xFF) i = 1 := by
  rw [msbBitAt]
  have hidx : i / 8 < 320 := by omega
  rw [List.getD_eq_getElem _ _ (by simpa using hidx)]
  rw [List.getElem_replicate]
  have h8 : i % 8 < 8 := Nat.mod_lt _ (by norm_num)
  set r := i % 8 with hr
  interval_cases r <;> decide

theorem sum_msb_weights (n : Nat) : ∑ j ∈ Finset.range n, 2 ^ (n - 1 - j) = 2 ^ n - 1 := by
  induction n with
  | zero => simp
  | succ n ih =>
    rw [Finset.sum_range_succ']
    have hterm : ∀ j ∈ Finset.range n, 2 ^ (n + 1 - 1 - (j + 1)) = 2 ^ (n - 1 - j) := by
      intro j _
      congr 1
      omega
    rw [Finset.sum_congr rfl hterm, ih]
    have hpow : 1 ≤ 2 ^ n := Nat.one_le_two_pow
    have h0 : n + 1 - 1 - 0 = n := by omega
    rw [h0]
    rw [pow_succ]
    omega

set_option maxRecDepth 40000 in
theorem ff_bits (n i : Nat) (h : i + n ≤ 2560) :
    BitStream.bits { bit_index := i, data := List.replicate 320 0xFF } n =
      some (2 ^ n - 1, { bit_index := i + n, data := List.replicate 320 0xFF }) := by
  rw [BitStream.bits, BitStream.bitsAux_spec (List.replicate 320 0xFF) n i 0 (by simp; omega)]
  have hsum : ∑ j ∈ Finset.range n, msbBitAt (List.replicate 320 0xFF) (i + j) * 2 ^ (n - 1 - j)
      = ∑ j ∈ Finset.range n, 2 ^ (n - 1 - j) := by
    refine Finset.sum_congr rfl fun j hj => ?_
    rw [ff_msbBitAt (i + j) (by have := Finset.mem_range.mp hj; omega)]
    ring
  rw [hsum, sum_msb_weights]
  simp

set_option maxRecDepth 40000 in
theorem ff_expandGo :
    ∀ (count i : Nat) (v : List Nat), i + 5 * count ≤ 2560 →
      expandGo (List.replicate 16 0xAA) count
          { bit_index := i, data := List.replicate 320 0xFF } v =
        some (v ++ List.replicate count 0xAA,
          { bit_index := i + 5 * count, data := List.replicate 320 0xFF }) := by
  intro count
  induction count with
  | zero =>
    intro i v h
    rw [expandGo]
    simp
  | succ count ih =>
    intro i v h
    rw [expandGo]
    rw [BitStream.bit_eq (List.replicate 320 0xFF) i (by simp; omega)]
    rw [ff_msbBitAt i (by omega)]
    dsimp only
    rw [if_pos (by norm_num)]
    rw [ff_bits 4 (i + 1) (by omega)]
    dsimp only
    have h15 : (2 : Nat) ^ 4 - 1 = 15 := by norm_num
    rw [h15]
    rw [dif_pos (by simp : (15 : Nat) < (List.replicate 16 0xAA).length)]
    have hget : (List.replicate 16 0xAA).get ⟨15, by simp⟩ = 0xAA := by decide
    rw [hget]
    rw [ih (i + 1 + 4) (v ++ [0xAA]) (by omega)]
    have hl : (v ++ [0xAA]) ++ List.replicate count 0xAA = v ++ List.replicate (count + 1) 0xAA := by
      rw [List.append_assoc]
      congr 1
    have hi : i + 1 + 4 + 5 * count = i + 5 * (count + 1) := by omega
    rw [hl, hi]


set_option maxRecDepth 40000 in
theorem ff_extract : extract_block c4mem 0 2 0 = some (List.replicate 512 0xAA) := by
  simp only [extract_block]
  rw [if_neg (by simp)]
  have hc : ¬(((0 : Nat) : Int) + 0 < 0 ∨ (c4mem.length : Int) < ((0 : Nat) : Int) + 0) := by
    simp
  rw [if_neg hc, if_pos trivial]
  have ht : (((0 : Nat) : Int) + 0).toNat = 0 := by simp
  rw [ht, List.drop_zero, decode_mode2]
  have hlen : ¬(c4mem.length < 16) := by decide
  rw [if_neg hlen]
  have htake : c4mem.take 16 = List.replicate 16 0xAA := by decide
  have hdrop : c4mem.drop 16 = List.replicate 320 0xFF := by decide
  rw [htake, hdrop, BitStream.fromBytes]
  rw [ff_expandGo 512 0 [] (by norm_num)]
  simp

set_option maxRecDepth 40000 in
theorem C4_witness :
    (List.replicate 512 0xAA).length = 512 ∧
      ∀ b ∈ List.replicate 512 0xAA,
        b ∈ (c4mem.drop (((0 : Nat) : Int) + 0).toNat).take 16 ∨ b < 256 :=
  C4_mode2_decode c4mem 0 0 (List.replicate 512 0xAA) ff_extract

set_option maxRecDepth 40000 in
/-- Claim C5: mode-0 decoding reads exactly 512 bytes from the storage start
(the result depends only on the first 512 bytes) and maps byte `i` to
`(0 - input[i]) mod 256`; byte-wise negation is self-inverse, so decoding
the byte-wise negation of any 512-byte block `b` yields `b`.  The third
conjunct ties `extract_block` with mode 0 (outside the all-zeroes special
case) to `decode_mode0` at the computed storage start. -/
theorem C5_mode0_negation :
    (∀ x, x < 256 → neg8 (neg8 x) = x) ∧
    (∀ s t : List Nat, s.take 512 = t.take 512 → decode_mode0 s = decode_mode0 t) ∧
    (∀ (mem : List Nat) (data_base : Nat) (off : Int), off ≠ 0 →
      extract_block mem data_base 0 off =
        if (data_base : Int) + off < 0 ∨ (mem.length : Int) < (data_base : Int) + off then none
        else decode_mode0 (mem.drop ((data_base : Int) + off).toNat)) ∧
    (∀ b junk : List Nat, b.length = 512 → (∀ x ∈ b, x < 256) →
      decode_mode0 (b.map neg8 ++ junk) = some b) := by
  refine ⟨by decide, ?_, ?_, ?_⟩
  · intro s t hst
    have hmin : min 512 s.length = min 512 t.length := by
      have hl := congrArg List.length hst
      simpa using hl
    rw [decode_mode0, decode_mode0, hst]
    by_cases hs : s.length < 512
    · rw [if_pos hs, if_pos (by omega)]
    · rw [if_neg hs, if_neg (by omega)]
  · intro mem data_base off hoff
    simp only [extract_block]
    rw [if_neg (by simp [hoff])]
    by_cases hbnd : ((data_base : Int) + off < 0 ∨ (mem.length : Int) < (data_base : Int) + off)
    · rw [if_pos hbnd, if_pos hbnd]
    · rw [if_neg hbnd, if_neg hbnd, if_pos trivial]
  · intro b junk hlen hb
    rw [decode_mode0]
    have hl : (b.map neg8 ++ junk).length = 512 + junk.length := by simp [hlen]
    rw [if_neg (by omega)]
    have h512 : (512 : Nat) = (b.map neg8).length := by simp [hlen]
    rw [h512, List.take_left, List.map_map]
    have hmap : b.map (neg8 ∘ neg8) = b.map id := by
      refine List.map_congr_left fun x hx => ?_
      have hx256 : x < 256 := hb x hx
      have hinv : ∀ y, y < 256 → neg8 (neg8 y) = y := by decide
      exact hinv x hx256
    rw [hmap, List.map_id]

set_option maxRecDepth 40000 in
theorem C5_witness :
    decode_mode0 ((List.replicate 512 7).map neg8 ++ []) = some (List.replicate 512 7) :=
  C5_mode0_negation.2.2.2 (List.replicate 512 7) [] (by simp)
    (by
      intro x hx
      have hx7 : x = 7 := List.eq_of_mem_replicate hx
      omega)

/-- Claim C6: for every ROM buffer and data-region base, decoding a block
with mode 0 and signed offset 0 yields 512 zero bytes without reading the
buffer (the result is the same for every buffer and base). -/
theorem C6_zero_special_case (mem : List Nat) (data_base : Nat) :
    extract_block mem data_base 0 0 = some (List.replicate 512 0) := by
  rw [extract_block, if_pos ⟨rfl, rfl⟩]

/-- Claim C1 (counterexample): raw offset `0x800000` does not resolve to
`-8388608` — the source's comparison is strict (`offset > 0x00800000`), so
it resolves to `+8388608`. -/
theorem C1_counterexample :
    resolveOffset 0x00800000 = 8388608 ∧ resolveOffset 0x00800000 ≠ -8388608 := by
  constructor
  · decide
  · decide

/-- Claim C1 (amended): the resolved signed offset equals
`rawOffset = entry & 0x00FFFFFF` when `rawOffset ≤ 0x800000`, and
`rawOffset - 0x1000000` when `rawOffset > 0x800000`; in particular raw
offset `0x800000` resolves to `+8388608` (not `-8388608`) and `0x7FFFFF`
resolves to `+8388607`, and every resolved offset lies in
`[-8388607, 8388608]`. -/
theorem C1_amended_offset_resolution :
    (∀ block : Nat,
      resolveOffset block =
        if (block &&& 0x00ffffff) ≤ 0x00800000 then ((block &&& 0x00ffffff : Nat) : Int)
        else ((block &&& 0x00ffffff : Nat) : Int) - 0x01000000) ∧
    resolveOffset 0x00800000 = 8388608 ∧
    resolveOffset 0x007fffff = 8388607 ∧
    (∀ block : Nat, -8388607 ≤ resolveOffset block ∧ resolveOffset block ≤ 8388608) := by
  refine ⟨?_, by decide, by decide, ?_⟩
  · intro block
    simp only [resolveOffset]
    have hle : (block &&& 0x00ffffff) ≤ 0x00ffffff := Nat.and_le_right
    by_cases hc : (0x00800000 : Int) < ((block &&& 0x00ffffff : Nat) : Int)
    · rw [if_pos hc, if_neg (by omega)]
    · rw [if_neg hc, if_pos (by omega)]
  · intro block
    simp only [resolveOffset]
    have hle : (block &&& 0x00ffffff) ≤ 0x00ffffff := Nat.and_le_right
    by_cases hc : (0x00800000 : Int) < ((block &&& 0x00ffffff : Nat) : Int)
    · rw [if_pos hc]
      constructor <;> omega
    · rw [if_neg hc]
      constructor <;> omega

/-! ### Whole-disk extraction and the scan loop -/


theorem decodeBlocks_none_of_mem (mem : List Nat) (data_base : Nat) :
    ∀ (blocks : List Nat) (block : Nat), block ∈ blocks →
      extract_block mem data_base (blockMode block) (resolveOffset block) = none →
      decodeBlocks mem data_base blocks = none := by
  intro blocks
  induction blocks with
  | nil => intro x hx _; simp at hx
  | cons a l ih =>
    intro x hx hf
    rw [decodeBlocks]
    rcases List.mem_cons.mp hx with h1 | h2
    · subst h1
      rw [hf]
    · cases hfa : extract_block mem data_base (blockMode a) (resolveOffset a) with
      | none => rfl
      | some b =>
        dsimp only
        rw [ih x h2 hf]

theorem extract_disk_go_eq (mem : List Nat) (data_base : Nat) :
    ∀ (blocks acc : List Nat),
      extract_disk_go mem data_base blocks acc =
        (decodeBlocks mem data_base blocks).map (fun parts => acc ++ parts.flatten) := by
  intro blocks
  induction blocks with
  | nil =>
    intro acc
    simp [extract_disk_go, decodeBlocks]
  | cons blk rest ih =>
    intro acc
    rw [extract_disk_go, decodeBlocks]
    cases hb : extract_block mem data_base (blockMode blk) (resolveOffset blk) with
    | none => rfl
    | some bytes =>
      dsimp only
      rw [ih (acc ++ bytes)]
      cases hm : decodeBlocks mem data_base rest with
      | none => rfl
      | some parts => simp

/-- Claim C8: no partial output.  `extract_disk` equals the per-block decode
of every table entry followed by concatenation, so the bytes handed to the
output file exist only when every block decoded in full; and if any block of
the table fails (any fatal condition inside `extract_block`), the whole
extraction is `none` and nothing is written for the container. -/
theorem C8_no_partial_output :
    (∀ (mem : List Nat) (location data_offset : Nat) (blocks : List Nat),
      extract_disk mem location data_offset blocks =
        (decodeBlocks mem (location + data_offset) blocks).map List.flatten) ∧
    (∀ (mem : List Nat) (location data_offset : Nat) (blocks : List Nat) (block : Nat),
      block ∈ blocks →
      extract_block mem (location + data_offset) (blockMode block) (resolveOffset block) = none →
      extract_disk mem location data_offset blocks = none) := by
  constructor
  · intro mem l d blocks
    rw [extract_disk, extract_disk_go_eq]
    cases decodeBlocks mem (l + d) blocks with
    | none => rfl
    | some parts => simp
  · intro mem l d blocks block hmem hnone
    rw [extract_disk, extract_disk_go_eq]
    rw [decodeBlocks_none_of_mem mem (l + d) blocks block hmem hnone]
    rfl

theorem C8_witness : extract_disk [] 0 0 [0x03000000] = none :=
  C8_no_partial_output.2 [] 0 0 [0x03000000] 0x03000000 (by decide) (by decide)

set_option maxRecDepth 2000 in
/-- Claim C9: a candidate 512-byte window whose bytes 132..144 differ from
the signature is not an error: `try_extract` reports success with no output
and does no further parsing, and the scan proceeds to the next 64 KiB
offset with an unchanged result. -/
theorem C9_signature_mismatch_skips (mem : List Nat) (location : Nat)
    (h1 : location + 512 ≤ mem.length)
    (h2 : (((mem.drop location).take 512).drop 132).take 12 ≠ EDISK_MAGIC) :
    try_extract mem location = some none ∧
    ∀ fuel, scanGo (fuel + 1) mem location = scanGo fuel mem (location + 0x10000) := by
  have hte : try_extract mem location = some none := by
    simp only [try_extract]
    rw [if_neg (by omega), if_pos h2]
  refine ⟨hte, fun fuel => ?_⟩
  rw [scanGo]
  rw [if_pos (show location < mem.length by omega), hte]

set_option maxRecDepth 40000 in
theorem C9_witness :
    try_extract (List.replicate 512 0) 0 = some none ∧
    ∀ fuel, scanGo (fuel + 1) (List.replicate 512 0) 0 =
      scanGo fuel (List.replicate 512 0) (0 + 0x10000) :=
  C9_signature_mismatch_skips (List.replicate 512 0) 0 (by decide) (by decide)
